import Mathlib

set_option maxRecDepth 40000

namespace Mbox

/-! Shallow embedding of the mbox-to-markdown message extraction engine
    (the `MboxParser` and `MarkdownGenerator` classes of the TypeScript
    source).  JavaScript strings are modelled as `List Char`; every
    function below is translated from the corresponding source method,
    keeping JavaScript regex/`split`/`replace`/truthiness semantics. -/

/-- Whitespace test used by JS `String.prototype.trim` (ASCII whitespace
    plus NBSP and BOM, the cases relevant to header text). -/
def isJsSpace (c : Char) : Bool :=
  decide (c = ' ' ∨ c = '\t' ∨ c = '\n' ∨ c = '\r' ∨ c = '\x0b' ∨ c = '\x0c'
    ∨ c = ' ' ∨ c = '﻿')

/-- JS `s.trim()`. -/
def jsTrim (s : List Char) : List Char :=
  ((s.dropWhile isJsSpace).reverse.dropWhile isJsSpace).reverse

/-- JS `s.toLowerCase()` (ASCII case folding). -/
def lower (s : List Char) : List Char := s.map Char.toLower

/-- Substring test: `needle` occurs contiguously in the second argument. -/
def isSubstr (needle : List Char) : List Char → Bool
  | [] => decide (needle = [])
  | c :: rest => needle.isPrefixOf (c :: rest) || isSubstr needle rest

/-- JS `hay.includes(needle)`: substring containment. -/
def includes (hay needle : List Char) : Bool := isSubstr needle hay

/-- JS `s.indexOf(c)` returning `none` for `-1`. -/
def jsIndexOf (c : Char) : List Char → Option Nat
  | [] => none
  | x :: rest => if x = c then some 0 else (jsIndexOf c rest).map (· + 1)

/-- JS `s.split(sep)` for a single-character separator. -/
def splitOnChar (sep : Char) : List Char → List (List Char)
  | [] => [[]]
  | c :: rest =>
    if c = sep then [] :: splitOnChar sep rest
    else
      match splitOnChar sep rest with
      | l :: ls => (c :: l) :: ls
      | [] => [[c]]

/-- JS `s.split('\n')`. -/
def splitOnNL (s : List Char) : List (List Char) := splitOnChar '\n' s

/-- JS `lines.join('\n')`. -/
def joinNL : List (List Char) → List Char
  | [] => []
  | [b] => b
  | b :: bs => b ++ '\n' :: joinNL bs

/-- The 5-character mbox delimiter token `From `. -/
def fromTok : List Char := "From ".data

/-- `MboxParser.parseContent`: the splitter `content.split(/\n(?=From )/)`.
    A split point is a `'\n'` immediately followed by the token `From `;
    the `'\n'` is consumed (it is the separator), the lookahead is not. -/
def splitAux : List Char → List Char → List (List Char)
  | [], acc => [acc.reverse]
  | c :: rest, acc =>
    if c = '\n' ∧ fromTok.isPrefixOf rest then acc.reverse :: splitAux rest []
    else splitAux rest (c :: acc)

/-- The block splitter of `MboxParser.parseContent`. -/
def splitBlocks (content : List Char) : List (List Char) := splitAux content []

/-- Whether a string contains an internal split point of the splitter:
    a `'\n'` whose suffix starts with `From `. -/
def hasSplitPoint : List Char → Bool
  | [] => false
  | c :: rest =>
    (decide (c = '\n') && fromTok.isPrefixOf rest) || hasSplitPoint rest

/-- A well-formed message for the splitter round trip: it begins with its
    `From ` delimiter line and contains no internal split point. -/
def wfBlock (m : List Char) : Bool :=
  fromTok.isPrefixOf m && !(hasSplitPoint m)

/-- JS `content.indexOf('\n\n')` returning `none` for `-1`. -/
def idxOfNLNL : List Char → Option Nat
  | [] => none
  | c :: rest =>
    if c = '\n' ∧ rest.head? = some '\n' then some 0
    else (idxOfNLNL rest).map (· + 1)

/-- JS `line.startsWith(' ') || line.startsWith('\t')`. -/
def startsWithWS (line : List Char) : Bool :=
  decide (line.head? = some ' ' ∨ line.head? = some '\t')

/-- Uppercase hex digit, as in the body-decode regex `[0-9A-F]`. -/
def isUpHex (c : Char) : Bool :=
  decide (('0' ≤ c ∧ c ≤ '9') ∨ ('A' ≤ c ∧ c ≤ 'F'))

/-- Value of an uppercase hex digit. -/
def hexVal (c : Char) : Nat :=
  if c ≤ '9' then c.toNat - 48 else c.toNat - 55

/-- `String.fromCharCode(parseInt(xy, 16))` for two uppercase hex digits. -/
def hexChar (x y : Char) : Char := Char.ofNat (16 * hexVal x + hexVal y)

/-- First `replace` of `MboxParser.cleanBody`: `body.replace(/=\r?\n/g, '')`
    — remove quoted-printable soft line breaks (left to right,
    non-overlapping, continuing after each match). -/
def removeSoft : List Char → List Char
  | [] => []
  | '=' :: '\r' :: '\n' :: r2 => removeSoft r2
  | '=' :: '\n' :: r2 => removeSoft r2
  | c :: rest => c :: removeSoft rest

/-- Second `replace` of `MboxParser.cleanBody`:
    `.replace(/=([0-9A-F]{2})/g, hex => char)`, fueled by the input length
    (each step consumes at least one character). -/
def replaceHexF : Nat → List Char → List Char
  | 0, s => s
  | _ + 1, [] => []
  | fuel + 1, '=' :: x :: y :: r2 =>
    if isUpHex x ∧ isUpHex y then hexChar x y :: replaceHexF fuel r2
    else '=' :: replaceHexF fuel (x :: y :: r2)
  | fuel + 1, c :: rest => c :: replaceHexF fuel rest

/-- The `=XY` replace pass of `MboxParser.cleanBody`. -/
def replaceHex (s : List Char) : List Char := replaceHexF s.length s

/-- `MboxParser.cleanBody`: strip soft breaks, decode `=XY` escapes, trim. -/
def cleanBody (body : List Char) : List Char :=
  jsTrim (replaceHex (removeSoft body))

/-- HTML "ASCII whitespace", stripped by forgiving-base64 (`atob`). -/
def isAsciiWS (c : Char) : Bool :=
  decide (c = ' ' ∨ c = '\t' ∨ c = '\n' ∨ c = '\x0c' ∨ c = '\r')

/-- Base64 alphabet character. -/
def isB64Char (c : Char) : Bool :=
  decide (('A' ≤ c ∧ c ≤ 'Z') ∨ ('a' ≤ c ∧ c ≤ 'z') ∨ ('0' ≤ c ∧ c ≤ '9')
    ∨ c = '+' ∨ c = '/')

/-- Base64 digit value. -/
def b64valOf (c : Char) : Nat :=
  if 'A' ≤ c ∧ c ≤ 'Z' then c.toNat - 65
  else if 'a' ≤ c ∧ c ≤ 'z' then c.toNat - 97 + 26
  else if '0' ≤ c ∧ c ≤ '9' then c.toNat - 48 + 52
  else if c = '+' then 62
  else 63

/-- Strip up to two trailing `'='` padding characters. -/
def stripPad (t : List Char) : List Char :=
  match t.reverse with
  | '=' :: '=' :: rest => rest.reverse
  | '=' :: rest => rest.reverse
  | _ => t

/-- Decode a list of 6-bit values to bytes (as chars), per base64. -/
def b64decode : List Nat → List Char
  | a :: b :: c :: d :: rest =>
    let n := ((a * 64 + b) * 64 + c) * 64 + d
    Char.ofNat (n / 65536) :: Char.ofNat (n / 256 % 256) :: Char.ofNat (n % 256)
      :: b64decode rest
  | [a, b] => [Char.ofNat ((a * 64 + b) / 16)]
  | [a, b, c] =>
    let n := (a * 64 + b) * 64 + c
    [Char.ofNat (n / 1024), Char.ofNat (n / 4 % 256)]
  | _ => []

/-- JS `atob` (forgiving-base64 decode); `none` models the thrown
    `InvalidCharacterError` that the source catches. -/
def atob (s : List Char) : Option (List Char) :=
  let t := s.filter (fun c => !isAsciiWS c)
  let t := if t.length % 4 = 0 then stripPad t else t
  if t.length % 4 = 1 then none
  else if !t.all isB64Char then none
  else some (b64decode (t.map b64valOf))

/-- The `[BQ]` class of the RFC2047 regex, with the `i` flag. -/
def encLetter (c : Char) : Bool :=
  decide (c = 'B' ∨ c = 'b' ∨ c = 'Q' ∨ c = 'q')

/-- Match the regex `=\?[^?]+\?[BQ]\?([^?]+)\?=` of `MboxParser.decodeHeader`
    at the start of `s`, returning (whole match, captured payload, rest). -/
def matchEncWord (s : List Char) : Option (List Char × List Char × List Char) :=
  match s with
  | '=' :: '?' :: r1 =>
    let cs := r1.takeWhile (fun c => c ≠ '?')
    if cs = [] then none
    else
      match r1.dropWhile (fun c => c ≠ '?') with
      | '?' :: e :: '?' :: r2 =>
        if encLetter e then
          let pl := r2.takeWhile (fun c => c ≠ '?')
          if pl = [] then none
          else
            match r2.dropWhile (fun c => c ≠ '?') with
            | '?' :: '=' :: r3 =>
              some ('=' :: '?' :: (cs ++ '?' :: e :: '?' :: (pl ++ ['?', '='])),
                pl, r3)
            | _ => none
        else none
      | _ => none
  | _ => none

/-- An RFC2047 encoded word `=?cs?e?pl?=` as a character list, for
    stating properties of the decoder. -/
def encWord (cs : List Char) (e : Char) (pl : List Char) : List Char :=
  '=' :: '?' :: (cs ++ '?' :: e :: '?' :: (pl ++ ['?', '=']))

/-- Global replace of encoded words: on a match, emit `atob payload` when it
    succeeds and the original matched substring when it fails, continuing
    after the match; otherwise advance one character.  Fueled by the input
    length (each step consumes at least one character). -/
def decodeWordsF : Nat → List Char → List Char
  | 0, s => s
  | _ + 1, [] => []
  | fuel + 1, c :: rest =>
    match matchEncWord (c :: rest) with
    | some (m, p, r) =>
      (match atob p with | some d => d | none => m) ++ decodeWordsF fuel r
    | none => c :: decodeWordsF fuel rest

/-- The replace pass of `MboxParser.decodeHeader`. -/
def decodeWords (s : List Char) : List Char := decodeWordsF s.length s

/-- `MboxParser.decodeHeader`: decode RFC2047 words, then trim. -/
def decodeHeader (value : List Char) : List Char := jsTrim (decodeWords value)

/-- JS object property assignment `obj[k] = v`: overwrite in place, or
    append a new entry. -/
def objSet (hs : List (List Char × List Char)) (k v : List Char) :
    List (List Char × List Char) :=
  if hs.any (fun p => p.1 == k) then
    hs.map (fun p => if p.1 == k then (p.1, v) else p)
  else hs ++ [(k, v)]

/-- JS object property read `obj[k]` (`none` models `undefined`). -/
def hget (hs : List (List Char × List Char)) (k : List Char) :
    Option (List Char) :=
  (hs.find? (fun p => p.1 == k)).map (fun p => p.2)

/-- JS `a || b` over a possibly-undefined, possibly-empty string `a`:
    an empty string is falsy. -/
def jsOr (a : Option (List Char)) (b : List Char) : List Char :=
  match a with
  | some v => if v = [] then b else v
  | none => b

/-- The loop of `MboxParser.parseHeaders`, carrying
    (`currentHeader`, `currentValue`) and the headers object. -/
def parseHeadersAux : List (List Char) → List Char × List Char →
    List (List Char × List Char) → List (List Char × List Char)
  | [], (ch, cv), hs => if ch ≠ [] then objSet hs ch (decodeHeader cv) else hs
  | line :: rest, (ch, cv), hs =>
    if startsWithWS line then
      parseHeadersAux rest (ch, cv ++ ' ' :: jsTrim line) hs
    else
      let hs' := if ch ≠ [] then objSet hs ch (decodeHeader cv) else hs
      match jsIndexOf ':' line with
      | some n =>
        if 0 < n then
          parseHeadersAux rest (jsTrim (line.take n), jsTrim (line.drop (n + 1))) hs'
        else parseHeadersAux rest (ch, cv) hs'
      | none => parseHeadersAux rest (ch, cv) hs'

/-- `MboxParser.parseHeaders`. -/
def parseHeaders (headerSection : List Char) : List (List Char × List Char) :=
  parseHeadersAux (splitOnNL headerSection) ([], []) []

/-- Sentinel `'(No Subject)'`. -/
def noSubject : List Char := "(No Subject)".data

/-- Sentinel `'(No Sender)'`. -/
def noSender : List Char := "(No Sender)".data

/-- Sentinel `'(No Recipient)'`. -/
def noRecipient : List Char := "(No Recipient)".data

/-- `headers['Subject'] || headers['subject'] || '(No Subject)'`. -/
def subjectOf (hs : List (List Char × List Char)) : List Char :=
  jsOr (hget hs "Subject".data) (jsOr (hget hs "subject".data) noSubject)

/-- `headers['From'] || headers['from'] || '(No Sender)'`. -/
def fromOf (hs : List (List Char × List Char)) : List Char :=
  jsOr (hget hs "From".data) (jsOr (hget hs "from".data) noSender)

/-- `headers['To'] || headers['to'] || '(No Recipient)'`. -/
def toOf (hs : List (List Char × List Char)) : List Char :=
  jsOr (hget hs "To".data) (jsOr (hget hs "to".data) noRecipient)

/-- `headers['Date'] || headers['date'] || ''`. -/
def dateOf (hs : List (List Char × List Char)) : List Char :=
  jsOr (hget hs "Date".data) (jsOr (hget hs "date".data) [])

/-- `headers['Message-ID'] || headers['Message-Id'] || headers['message-id'] || ''`. -/
def messageIdOf (hs : List (List Char × List Char)) : List Char :=
  jsOr (hget hs "Message-ID".data)
    (jsOr (hget hs "Message-Id".data) (jsOr (hget hs "message-id".data) []))

/-- The fallback header/body boundary scan of `MboxParser.parseEmail`
    (Approach 2): returns the final `headerEndLine` (`-1` when never set).
    Mirrors the source loop including its `break`s. -/
def findHeaderEnd : List (List Char) → Nat → Int → Int
  | [], _, acc => acc
  | line :: rest, i, acc =>
    if startsWithWS line then findHeaderEnd rest (i + 1) acc
    else if line.contains ':' ∧ line.length < 200 then
      findHeaderEnd rest (i + 1) (Int.ofNat i)
    else if jsTrim line = [] then Int.ofNat i
    else if 0 < i ∧ ¬line.contains ':' then Int.ofNat i - 1
    else findHeaderEnd rest (i + 1) acc

/-- Header/body split of `MboxParser.parseEmail` on the content after the
    delimiter line: blank-line boundary first, else the fallback scan,
    else first line as header.  The body is already `cleanBody`-decoded,
    as in the source. -/
def splitHeaderBody (content : List Char) : List Char × List Char :=
  match idxOfNLNL content with
  | some i => (content.take i, cleanBody (content.drop (i + 2)))
  | none =>
    let contentLines := splitOnNL content
    let he := findHeaderEnd contentLines 0 (-1)
    if 0 ≤ he then
      (joinNL (contentLines.take (he.toNat + 1)),
        cleanBody (joinNL (contentLines.drop (he.toNat + 1))))
    else
      (contentLines.headD [], cleanBody (joinNL (contentLines.drop 1)))

/-- Strip the leading `From ` delimiter line of a block, as in
    `MboxParser.parseEmail`. -/
def stripDelimiter (block : List Char) : List Char :=
  let firstLine := (splitOnNL block).headD []
  if fromTok.isPrefixOf firstLine then block.drop (firstLine.length + 1)
  else block

/-- The engine's output record (`EmailData` in the source). -/
structure EmailData where
  subject : List Char
  «from» : List Char
  «to» : List Char
  date : List Char
  messageId : List Char
  body : List Char
  headers : List (List Char × List Char)
deriving Repr, DecidableEq

/-- `MboxParser.parseEmail`: one `EmailData` per block, or `none` when no
    header section could be extracted or a required field is missing. -/
def parseEmail (block : List Char) : Option EmailData :=
  let content := stripDelimiter block
  let hb := splitHeaderBody content
  if hb.1 = [] then none
  else
    let hs := parseHeaders hb.1
    if fromOf hs = noSender ∨ toOf hs = noRecipient then none
    else some ⟨subjectOf hs, fromOf hs, toOf hs, dateOf hs, messageIdOf hs,
      hb.2, hs⟩

/-- The identity configuration imported from `config.ts`. -/
structure IdentityConfig where
  ignoredSenders : List (List Char)
  myEmails : List (List Char)
  myNames : List (List Char)
deriving Repr, DecidableEq

/-- Match `/<([^>]+)>/` (leftmost), returning the capture. -/
def matchAngle : List Char → Option (List Char)
  | [] => none
  | c :: rest =>
    if c = '<' then
      let inner := rest.takeWhile (fun x => x ≠ '>')
      if inner = [] then matchAngle rest
      else
        match rest.dropWhile (fun x => x ≠ '>') with
        | '>' :: _ => some inner
        | _ => matchAngle rest
    else matchAngle rest

/-- The class `[a-zA-Z0-9._%+-]` of the bare-address regex. -/
def isLocalChar (c : Char) : Bool :=
  c.isAlpha || c.isDigit || decide (c = '.' ∨ c = '_' ∨ c = '%' ∨ c = '+' ∨ c = '-')

/-- The class `[a-zA-Z0-9.-]` of the bare-address regex. -/
def isDomainChar (c : Char) : Bool :=
  c.isAlpha || c.isDigit || decide (c = '.' ∨ c = '-')

/-- Whether position `k` of the domain run can host the `\.[a-zA-Z]{2,}`
    tail of the bare-address regex. -/
def dotSplitOk (dom : List Char) (k : Nat) : Bool :=
  match dom.drop k with
  | '.' :: tail => decide (2 ≤ (tail.takeWhile Char.isAlpha).length)
  | _ => false

/-- Greedy backtracking over the domain run: the largest viable dot
    position, tried from high to low, never zero. -/
def findDotSplitAux (dom : List Char) : Nat → Option Nat
  | 0 => none
  | k + 1 =>
    if dotSplitOk dom (k + 1) then some (k + 1) else findDotSplitAux dom k

/-- Largest `k ≥ 1` with `dom[k] = '.'` followed by at least two letters. -/
def findDotSplit (dom : List Char) : Option Nat :=
  findDotSplitAux dom (dom.length - 1)

/-- Match `([a-zA-Z0-9._%+-]+@[a-zA-Z0-9.-]+\.[a-zA-Z]{2,})` anchored at
    the start of `s` (with JS greedy-backtracking semantics). -/
def matchEmailAt (s : List Char) : Option (List Char) :=
  let loc := s.takeWhile isLocalChar
  if loc = [] then none
  else
    match s.drop loc.length with
    | '@' :: r2 =>
      let dom := r2.takeWhile isDomainChar
      match findDotSplit dom with
      | some k =>
        some (loc ++ '@' :: (dom.take k ++ '.' ::
          ((dom.drop (k + 1)).takeWhile Char.isAlpha)))
      | none => none
    | _ => none

/-- Leftmost match of the bare-address regex. -/
def jsMatchEmail : List Char → Option (List Char)
  | [] => none
  | c :: rest =>
    match matchEmailAt (c :: rest) with
    | some cap => some cap
    | none => jsMatchEmail rest

/-- `MboxParser.extractEmail`. -/
def extractEmail (field : List Char) : Option (List Char) :=
  match matchAngle field with
  | some e => some e
  | none => jsMatchEmail field

/-- `.replace(/['"]/g, '')`. -/
def stripQuotes (s : List Char) : List Char :=
  s.filter (fun c => decide (c ≠ Char.ofNat 39 ∧ c ≠ Char.ofNat 34))

/-- `MboxParser.extractName`. -/
def extractName (field : List Char) : Option (List Char) :=
  let inner := field.takeWhile (fun c => c ≠ '<')
  if inner ≠ [] ∧ field.dropWhile (fun c => c ≠ '<') ≠ [] then
    some (stripQuotes (jsTrim inner))
  else if !field.contains '@' then some (stripQuotes (jsTrim field))
  else none

/-- `MboxParser.extractEmails` (per comma-separated recipient). -/
def extractEmails (field : List Char) : List (List Char) :=
  (splitOnChar ',' field).filterMap (fun r => extractEmail (jsTrim r))

/-- `MboxParser.extractNames` (per comma-separated recipient). -/
def extractNames (field : List Char) : List (List Char) :=
  (splitOnChar ',' field).filterMap (fun r => extractName (jsTrim r))

/-- `MboxParser.isSelfEmail`, with the module-level configuration passed
    explicitly.  The debug sampling of the source is observability only. -/
def isSelfEmail (cfg : IdentityConfig) (e : EmailData) : Bool :=
  let fromEmail := extractEmail e.«from»
  let fromName := extractName e.«from»
  let toEmails := extractEmails e.«to»
  let toNames := extractNames e.«to»
  if cfg.ignoredSenders.any (fun sender =>
      includes (lower e.«from») (lower sender) ||
      (match fromName with
       | some n => includes (lower n) (lower sender)
       | none => false)) then
    true
  else
    let fromIsMe :=
      cfg.myEmails.any (fun addr =>
        match fromEmail with
        | some m => includes (lower m) (lower addr)
        | none => false) ||
      cfg.myNames.any (fun nm =>
        match fromName with
        | some n => includes (lower n) (lower nm)
        | none => false)
    let toIsMe :=
      toEmails.any (fun a => cfg.myEmails.any (fun m => includes (lower a) (lower m))) ||
      toNames.any (fun n => cfg.myNames.any (fun m => includes (lower n) (lower m)))
    fromIsMe && toIsMe

/-- The ignored-sender disjunct of the classifier, stated standalone:
    some fragment is a case-insensitive substring of the raw from field
    or of the extracted display name. -/
def ignoredMatch (cfg : IdentityConfig) (e : EmailData) : Bool :=
  cfg.ignoredSenders.any (fun sender =>
    includes (lower e.«from») (lower sender) ||
    (match extractName e.«from» with
     | some n => includes (lower n) (lower sender)
     | none => false))

/-- The from-is-me disjunct of the classifier, stated standalone. -/
def fromIsMe (cfg : IdentityConfig) (e : EmailData) : Bool :=
  cfg.myEmails.any (fun addr =>
    match extractEmail e.«from» with
    | some m => includes (lower m) (lower addr)
    | none => false) ||
  cfg.myNames.any (fun nm =>
    match extractName e.«from» with
    | some n => includes (lower n) (lower nm)
    | none => false)

/-- The to-includes-me disjunct of the classifier, stated standalone. -/
def toIncludesMe (cfg : IdentityConfig) (e : EmailData) : Bool :=
  (extractEmails e.«to»).any (fun a =>
    cfg.myEmails.any (fun m => includes (lower a) (lower m))) ||
  (extractNames e.«to»).any (fun n =>
    cfg.myNames.any (fun m => includes (lower n) (lower m)))

/-- The per-block loop of `MboxParser.parseContent`: trim, skip empties,
    parse, drop classifier-excluded records. -/
def processBlocks (cfg : IdentityConfig) : List (List Char) → List EmailData
  | [] => []
  | b :: rest =>
    let t := jsTrim b
    if t ≠ [] then
      match parseEmail t with
      | some e =>
        if isSelfEmail cfg e then processBlocks cfg rest
        else e :: processBlocks cfg rest
      | none => processBlocks cfg rest
    else processBlocks cfg rest

/-- `MboxParser.parseContent`. -/
def parseContent (cfg : IdentityConfig) (content : List Char) : List EmailData :=
  processBlocks cfg (splitBlocks content)

/-- Index (within `s`) of the first `')'` before any newline, for the
    non-greedy `\(.*?\)` body (JS `.` does not match `'\n'`). -/
def findCloseParen : List Char → Option Nat
  | [] => none
  | ')' :: _ => some 0
  | '\n' :: _ => none
  | _ :: rest => (findCloseParen rest).map (· + 1)

/-- `dateStr.replace(/\(.*?\)/g, '')` of `MarkdownGenerator.parseDate`,
    fueled by the input length (each step consumes at least one
    character). -/
def stripParenCommentsF : Nat → List Char → List Char
  | 0, s => s
  | _ + 1, [] => []
  | fuel + 1, c :: rest =>
    if c = '(' then
      match findCloseParen rest with
      | some j => stripParenCommentsF fuel (rest.drop (j + 1))
      | none => '(' :: stripParenCommentsF fuel rest
    else c :: stripParenCommentsF fuel rest

/-- The comment-stripping replace of `MarkdownGenerator.parseDate`. -/
def stripParenComments (s : List Char) : List Char :=
  stripParenCommentsF s.length s

/-- `MarkdownGenerator.parseDate`, with the host `Date` parser abstracted
    as an oracle `p` (`none` models an Invalid Date): empty string short
    circuit, direct parse, then retry on the comment-stripped string. -/
def parseDate (p : List Char → Option Int) (dateStr : List Char) : Option Int :=
  if dateStr = [] then none
  else
    match p dateStr with
    | some d => some d
    | none =>
      match p (jsTrim (stripParenComments dateStr)) with
      | some d => some d
      | none => none

/-- Modelled from the spec: the spec's fallback-scan classification of a
    header line ("does not start with whitespace and contains a colon
    within the first 200 characters"), stated for comparison with the
    source's condition. -/
def specHeaderLine (line : List Char) : Bool :=
  !startsWithWS line && (line.take 200).contains ':'

/-! ### Lemmas about the splitter -/

theorem splitAux_ne_nil (s acc : List Char) : splitAux s acc ≠ [] := by
  induction s generalizing acc with
  | nil => simp [splitAux]
  | cons c rest ih =>
    simp only [splitAux]
    split
    · simp
    · exact ih _

theorem joinNL_cons {b : List Char} {bs : List (List Char)} (h : bs ≠ []) :
    joinNL (b :: bs) = b ++ '\n' :: joinNL bs := by
  rcases bs with _ | ⟨x, xs⟩
  · exact absurd rfl h
  · rfl

theorem joinNL_splitAux (s acc : List Char) :
    joinNL (splitAux s acc) = acc.reverse ++ s := by
  induction s generalizing acc with
  | nil => simp [splitAux, joinNL]
  | cons c rest ih =>
    simp only [splitAux]
    split
    case isTrue h =>
      rw [joinNL_cons (splitAux_ne_nil _ _), ih []]
      simp [h.1]
    case isFalse h =>
      rw [ih]
      simp

theorem isPrefixOf_append_right {l m z : List Char} (h : l.isPrefixOf m = true) :
    l.isPrefixOf (m ++ z) = true := by
  induction l generalizing m with
  | nil => simp [List.isPrefixOf]
  | cons a l ih =>
    rcases m with _ | ⟨b, m⟩
    · simp [List.isPrefixOf] at h
    · simp only [List.isPrefixOf, Bool.and_eq_true] at h ⊢
      exact ⟨h.1, ih h.2⟩

/-- The token `From ` contains no newline, so a prefix match that would
    have to straddle a `'\n'` already holds of the part before it. -/
theorem fromTok_prefix_of_append_nl {y z : List Char}
    (h : fromTok.isPrefixOf (y ++ '\n' :: z) = true) :
    fromTok.isPrefixOf y = true := by
  rcases y with _ | ⟨a, _ | ⟨b, _ | ⟨c, _ | ⟨d, _ | ⟨e, y⟩⟩⟩⟩⟩ <;>
    simp_all [fromTok, List.isPrefixOf] <;> tauto

theorem hasSplitPoint_of_decomp (x y : List Char)
    (h : fromTok.isPrefixOf y = true) :
    hasSplitPoint (x ++ '\n' :: y) = true := by
  induction x with
  | nil => simp [hasSplitPoint, h]
  | cons c x ih => simp [hasSplitPoint, ih]

theorem splitAux_noSplit (m : List Char) :
    ∀ acc, hasSplitPoint m = false → splitAux m acc = [acc.reverse ++ m] := by
  induction m with
  | nil => intro acc _; simp [splitAux]
  | cons c rest ih =>
    intro acc h
    simp only [hasSplitPoint, Bool.or_eq_false_iff, Bool.and_eq_false_iff,
      decide_eq_false_iff_not] at h
    simp only [splitAux]
    rw [if_neg (by rintro ⟨h1, h2⟩; rcases h.1 with h' | h' <;> simp_all),
      ih _ h.2]
    simp

theorem splitAux_split (m rest : List Char)
    (hpre : fromTok.isPrefixOf rest = true) :
    ∀ acc, hasSplitPoint m = false →
      splitAux (m ++ '\n' :: rest) acc = (acc.reverse ++ m) :: splitAux rest [] := by
  induction m with
  | nil => intro acc _; simp [splitAux, hpre]
  | cons c m' ih =>
    intro acc hm
    simp only [hasSplitPoint, Bool.or_eq_false_iff, Bool.and_eq_false_iff,
      decide_eq_false_iff_not] at hm
    simp only [List.cons_append, splitAux, List.append_eq]
    rw [if_neg ?_, ih _ hm.2]
    · simp
    · rintro ⟨h1, h2⟩
      have h3 := fromTok_prefix_of_append_nl h2
      rcases hm.1 with h' | h' <;> simp_all

theorem splitBlocks_joinNL (ms : List (List Char)) (hne : ms ≠ [])
    (hwf : ∀ m ∈ ms, wfBlock m = true) : splitBlocks (joinNL ms) = ms := by
  induction ms with
  | nil => exact absurd rfl hne
  | cons m ms' ih =>
    have hwfm := hwf m (by simp)
    simp only [wfBlock, Bool.and_eq_true, Bool.not_eq_true'] at hwfm
    rcases ms' with _ | ⟨m2, ms''⟩
    · simpa [splitBlocks, joinNL] using splitAux_noSplit m [] hwfm.2

    · have hpre2 : fromTok.isPrefixOf (joinNL (m2 :: ms'')) = true := by
        have h2 := hwf m2 (by simp)
        simp only [wfBlock, Bool.and_eq_true, Bool.not_eq_true'] at h2
        rcases ms'' with _ | ⟨m3, ms'''⟩
        · simpa [joinNL] using h2.1
        · rw [joinNL_cons (by simp)]
          exact isPrefixOf_append_right h2.1
      rw [joinNL_cons (by simp), splitBlocks, splitAux_split _ _ hpre2 _ hwfm.2]
      simp only [List.reverse_nil, List.nil_append]
      rw [show splitAux (joinNL (m2 :: ms'')) [] = splitBlocks (joinNL (m2 :: ms'')) from rfl,
        ih (by simp) (fun x hx => hwf x (by simp [hx]))]

/-! ### Claim C2 -/

/-- Claim C2, counterexample: for the two-message archive
    `From a\nFrom b` the splitter yields the two expected blocks, but
    concatenating the blocks does not reproduce the input — the `'\n'`
    before each delimiter is consumed by the split. -/
theorem C2_counterexample :
    splitBlocks ("From a\nFrom b".data) = ["From a".data, "From b".data] ∧
    (splitBlocks ("From a\nFrom b".data)).flatten ≠ "From a\nFrom b".data := by
  decide

/-- Claim C2 (amended): for every archive of `N` well-formed messages each
    preceded by its `From ` delimiter line, the splitter yields exactly the
    `N` blocks, and re-joining the yielded blocks with single `'\n'`
    separators (rather than plain concatenation) reproduces the original
    input; the newline join round-trips for arbitrary input. -/
theorem C2_split_roundtrip :
    (∀ s : List Char, joinNL (splitBlocks s) = s) ∧
    (∀ ms : List (List Char), ms ≠ [] → (∀ m ∈ ms, wfBlock m = true) →
      splitBlocks (joinNL ms) = ms ∧
      (splitBlocks (joinNL ms)).length = ms.length) := by
  refine ⟨fun s => by simpa using joinNL_splitAux s [], fun ms hne hwf => ?_⟩
  have h := splitBlocks_joinNL ms hne hwf
  exact ⟨h, by rw [h]⟩

/-- Witness for C2: the round trip evaluated on a concrete two-message
    archive. -/
theorem C2_witness :
    splitBlocks (joinNL ["From a".data, "From b".data]) =
      ["From a".data, "From b".data] :=
  (C2_split_roundtrip.2 ["From a".data, "From b".data] (by decide) (by decide)).1

/-! ### Lemmas about lines, joining and membership -/

theorem splitOnChar_ne_nil (sep : Char) (s : List Char) :
    splitOnChar sep s ≠ [] := by
  induction s with
  | nil => simp [splitOnChar]
  | cons c rest ih =>
    simp only [splitOnChar]
    split
    · simp
    · split
      · simp
      · simp

theorem mem_of_mem_splitOnChar {sep c : Char} {s l : List Char}
    (hl : l ∈ splitOnChar sep s) (hc : c ∈ l) : c ∈ s := by
  induction s generalizing l with
  | nil =>
    simp [splitOnChar] at hl
    subst hl
    simp at hc
  | cons x rest ih =>
    simp only [splitOnChar] at hl
    by_cases hx : x = sep
    · rw [if_pos hx] at hl
      rcases List.mem_cons.mp hl with h | h
      · subst h; simp at hc
      · exact List.mem_cons_of_mem _ (ih h hc)
    · rw [if_neg hx] at hl
      rcases h2 : splitOnChar sep rest with _ | ⟨l0, ls⟩
      · exact absurd h2 (splitOnChar_ne_nil sep rest)
      · rw [h2] at hl
        rcases List.mem_cons.mp hl with h | h
        · subst h
          rcases List.mem_cons.mp hc with h | h
          · simp [h]
          · exact List.mem_cons_of_mem _ (ih (h2 ▸ List.mem_cons_self l0 ls) h)
        · exact List.mem_cons_of_mem _ (ih (h2 ▸ List.mem_cons_of_mem _ h) hc)

theorem mem_of_mem_joinNL {c : Char} {ls : List (List Char)}
    (h : c ∈ joinNL ls) : c = '\n' ∨ ∃ l ∈ ls, c ∈ l := by
  induction ls with
  | nil => simp [joinNL] at h
  | cons b bs ih =>
    rcases bs with _ | ⟨b2, bs'⟩
    · exact Or.inr ⟨b, by simpa [joinNL] using h⟩
    · rw [joinNL_cons (by simp)] at h
      rcases List.mem_append.mp h with h | h
      · exact Or.inr ⟨b, by simp, h⟩
      · rcases List.mem_cons.mp h with h | h
        · exact Or.inl h
        · rcases ih h with h | ⟨l, hl, hc⟩
          · exact Or.inl h
          · exact Or.inr ⟨l, by simp [hl], hc⟩

theorem mem_of_mem_stripDelimiter {c : Char} {block : List Char}
    (h : c ∈ stripDelimiter block) : c ∈ block := by
  simp only [stripDelimiter] at h
  split at h
  · exact List.drop_subset _ _ h
  · exact h

/-- Every character of the extracted header section is a character of the
    content or an inserted `'\n'`. -/
theorem mem_of_mem_headerSection {c : Char} {content : List Char}
    (h : c ∈ (splitHeaderBody content).1) : c ∈ content ∨ c = '\n' := by
  unfold splitHeaderBody at h
  split at h
  · exact Or.inl (List.take_subset _ _ h)
  · dsimp only at h
    split at h
    · dsimp only at h
      rcases mem_of_mem_joinNL h with h | ⟨l, hl, hc⟩
      · exact Or.inr h
      · exact Or.inl (mem_of_mem_splitOnChar (List.take_subset _ _ hl) hc)
    · dsimp only at h
      rcases h2 : splitOnNL content with _ | ⟨l0, ls⟩
      · exact absurd h2 (splitOnChar_ne_nil _ _)
      · rw [h2] at h
        simp only [List.headD_cons] at h
        exact Or.inl (mem_of_mem_splitOnChar (h2 ▸ List.mem_cons_self l0 ls) h)

/-! ### Lemmas about header parsing -/

theorem jsIndexOf_eq_none {c : Char} {l : List Char} (h : ∀ x ∈ l, x ≠ c) :
    jsIndexOf c l = none := by
  induction l with
  | nil => rfl
  | cons x rest ih =>
    simp only [jsIndexOf, if_neg (h x (by simp))]
    rw [ih (fun x hx => h x (by simp [hx]))]
    rfl

/-- While no header has been started (`currentHeader` empty), lines
    without a proper colon never store anything. -/
theorem parseHeadersAux_no_colon (lines : List (List Char)) :
    ∀ cv acc, (∀ line ∈ lines, jsIndexOf ':' line = none) →
      parseHeadersAux lines ([], cv) acc = acc := by
  induction lines with
  | nil => intro cv acc _; simp [parseHeadersAux]
  | cons line rest ih =>
    intro cv acc h
    simp only [parseHeadersAux]
    split
    · exact ih _ _ (fun l hl => h l (by simp [hl]))
    · rw [h line (by simp)]
      simp only [ne_eq, not_true_eq_false, if_false, reduceIte]
      exact ih _ _ (fun l hl => h l (by simp [hl]))

/-! ### Claim C3 -/

/-- Claim C3, counterexample: the block `hello\nworld` (no blank line, no
    colon) is dropped, but not through the empty-header-section check: the
    first line `hello` *is* selected as the header section. -/
theorem C3_counterexample :
    parseEmail "hello\nworld".data = none ∧
    (splitHeaderBody (stripDelimiter "hello\nworld".data)).1 = "hello".data := by
  decide

/-- Claim C3 (amended): a block with no colon in any line yields no
    MessageRecord — but via the missing-required-field path: the selected
    header section parses to an empty HeaderMap, so `from`/`to` resolve to
    their placeholders; the empty-header-section (HeaderBoundaryFailure)
    check only fires when the chosen header section is itself empty. -/
theorem C3_no_colon_dropped (block : List Char)
    (h : ∀ c ∈ block, c ≠ ':') :
    parseEmail block = none ∧
    parseHeaders (splitHeaderBody (stripDelimiter block)).1 = [] := by
  have hsub : ∀ c ∈ stripDelimiter block, c ≠ ':' :=
    fun c hc => h c (mem_of_mem_stripDelimiter hc)
  have hsec : ∀ c ∈ (splitHeaderBody (stripDelimiter block)).1, c ≠ ':' := by
    intro c hc
    rcases mem_of_mem_headerSection hc with h' | h'
    · exact hsub c h'
    · simp [h']
  have hhdrs : parseHeaders (splitHeaderBody (stripDelimiter block)).1 = [] := by
    unfold parseHeaders
    apply parseHeadersAux_no_colon
    intro line hline
    exact jsIndexOf_eq_none (fun x hx =>
      hsec x (mem_of_mem_splitOnChar hline hx))
  refine ⟨?_, hhdrs⟩
  simp only [parseEmail]
  split
  · rfl
  · rw [hhdrs, if_pos (Or.inl (by decide))]

/-- Witness for C3: the amended statement applied to the concrete
    colon-free block. -/
theorem C3_witness : parseEmail "hello\nworld".data = none :=
  (C3_no_colon_dropped "hello\nworld".data (by decide)).1

/-! ### Claim C4 -/

theorem jsOr_ne_nil {o : Option (List Char)} {d : List Char} (hd : d ≠ []) :
    jsOr o d ≠ [] := by
  rcases o with _ | v
  · exact hd
  · simp only [jsOr]
    split
    · exact hd
    · assumption

/-- Claim C4: a MessageRecord is produced only with non-empty,
    non-placeholder `from` and `to`; a placeholder in either field makes
    the assembler return no record; and a dropped block does not disturb
    the processing of the surrounding blocks. -/
theorem C4_required_fields :
    (∀ block r, parseEmail block = some r →
      r.«from» ≠ [] ∧ r.«to» ≠ [] ∧
      r.«from» ≠ noSender ∧ r.«to» ≠ noRecipient) ∧
    (∀ block,
      fromOf (parseHeaders (splitHeaderBody (stripDelimiter block)).1) = noSender ∨
      toOf (parseHeaders (splitHeaderBody (stripDelimiter block)).1) = noRecipient →
      parseEmail block = none) ∧
    (∀ cfg pre bad post, parseEmail (jsTrim bad) = none →
      processBlocks cfg (pre ++ bad :: post) = processBlocks cfg (pre ++ post)) := by
  refine ⟨fun block r h => ?_, fun block h => ?_, fun cfg pre bad post h => ?_⟩
  · simp only [parseEmail] at h
    split at h
    · exact absurd h (by simp)
    · split at h
      · exact absurd h (by simp)
      · rename_i hguard
        push_neg at hguard
        obtain rfl := (Option.some.injEq _ _).mp h
        exact ⟨jsOr_ne_nil (jsOr_ne_nil (by decide)),
          jsOr_ne_nil (jsOr_ne_nil (by decide)), hguard.1, hguard.2⟩
  · simp only [parseEmail]
    split <;> rfl
  · induction pre with
    | nil =>
      simp only [List.nil_append, processBlocks]
      split
      · simp [h]
      · rfl
    | cons p pre' ih =>
      simp only [List.cons_append, processBlocks, List.append_eq, ih]

/-- Witness for C4: a block whose headers yield no `from`/`to` is dropped
    without affecting the record of its neighbour block. -/
theorem C4_witness :
    processBlocks ⟨[], [], []⟩
      ["From x\nFrom: a@x.com\nTo: b@y.com\n\nhi".data, "hello\nworld".data] =
    processBlocks ⟨[], [], []⟩
      ["From x\nFrom: a@x.com\nTo: b@y.com\n\nhi".data] :=
  C4_required_fields.2.2 ⟨[], [], []⟩
    ["From x\nFrom: a@x.com\nTo: b@y.com\n\nhi".data]
    "hello\nworld".data [] (by decide)

/-! ### Claim C10 -/

theorem mem_objSet {hs : List (List Char × List Char)} {k0 v0 : List Char}
    {p : List Char × List Char} (h : p ∈ objSet hs k0 v0) :
    p ∈ hs ∨ p = (k0, v0) := by
  unfold objSet at h
  split at h
  · rcases List.mem_map.mp h with ⟨q, hq, hfq⟩
    by_cases hb : q.1 == k0
    · right
      rw [if_pos hb] at hfq
      have : q.1 = k0 := by simpa using hb
      simp [← hfq, this]
    · left
      rw [if_neg hb] at hfq
      exact hfq ▸ hq
  · rcases List.mem_append.mp h with h | h
    · exact Or.inl h
    · simp at h
      exact Or.inr (by simp [h])

theorem parseHeadersAux_mem (lines : List (List Char)) :
    ∀ ch cv acc k v, (k, v) ∈ parseHeadersAux lines (ch, cv) acc →
      (k, v) ∈ acc ∨ (k = ch ∧ k ≠ []) ∨
      (k ≠ [] ∧ ∃ line ∈ lines, startsWithWS line = false ∧
        ∃ n, jsIndexOf ':' line = some n ∧ 0 < n ∧ k = jsTrim (line.take n)) := by
  induction lines with
  | nil =>
    intro ch cv acc k v h
    simp only [parseHeadersAux] at h
    split at h
    · rcases mem_objSet h with h | h
      · exact Or.inl h
      · simp only [Prod.mk.injEq] at h
        exact Or.inr (Or.inl ⟨h.1, h.1 ▸ (by assumption)⟩)
    · exact Or.inl h
  | cons line rest ih =>
    intro ch cv acc k v h
    simp only [parseHeadersAux] at h
    split at h
    · rcases ih _ _ _ _ _ h with h | h | ⟨hk, l, hl, hrest⟩
      · exact Or.inl h
      · exact Or.inr (Or.inl h)
      · exact Or.inr (Or.inr ⟨hk, l, by simp [hl], hrest⟩)
    · rename_i hws
      have hmem : ∀ {acc' : List (List Char × List Char)},
          (k, v) ∈ (if ch ≠ [] then objSet acc' ch (decodeHeader cv) else acc') →
          (k, v) ∈ acc' ∨ (k = ch ∧ k ≠ []) := by
        intro acc' hm
        split at hm
        · rcases mem_objSet hm with hm | hm
          · exact Or.inl hm
          · simp only [Prod.mk.injEq] at hm
            exact Or.inr ⟨hm.1, hm.1 ▸ (by assumption)⟩
        · exact Or.inl hm
      rcases hidx : jsIndexOf ':' line with _ | n
      · simp only [hidx] at h
        rcases ih _ _ _ _ _ h with h | h | ⟨hk, l, hl, hrest⟩
        · rcases hmem h with h | h
          · exact Or.inl h
          · exact Or.inr (Or.inl h)
        · exact Or.inr (Or.inl h)
        · exact Or.inr (Or.inr ⟨hk, l, by simp [hl], hrest⟩)
      · simp only [hidx] at h
        by_cases hn : 0 < n
        · rw [if_pos hn] at h
          rcases ih _ _ _ _ _ h with h | h | ⟨hk, l, hl, hrest⟩
          · rcases hmem h with h | h
            · exact Or.inl h
            · exact Or.inr (Or.inl h)
          · exact Or.inr (Or.inr ⟨h.2, line, by simp,
              Bool.not_eq_true _ ▸ (by simpa using hws), n, hidx, hn, h.1⟩)
          · exact Or.inr (Or.inr ⟨hk, l, by simp [hl], hrest⟩)
        · rw [if_neg hn] at h
          rcases ih _ _ _ _ _ h with h | h | ⟨hk, l, hl, hrest⟩
          · rcases hmem h with h | h
            · exact Or.inl h
            · exact Or.inr (Or.inl h)
          · exact Or.inr (Or.inl h)
          · exact Or.inr (Or.inr ⟨hk, l, by simp [hl], hrest⟩)

/-- While `currentHeader` is empty the accumulated `currentValue` is
    never stored: the result does not depend on it. -/
theorem parseHeadersAux_cv_irrel (lines : List (List Char)) :
    ∀ cv1 cv2 acc, parseHeadersAux lines ([], cv1) acc =
      parseHeadersAux lines ([], cv2) acc := by
  induction lines with
  | nil => intro cv1 cv2 acc; simp [parseHeadersAux]
  | cons line rest ih =>
    intro cv1 cv2 acc
    simp only [parseHeadersAux]
    split
    · exact ih _ _ _
    · rcases hidx : jsIndexOf ':' line with _ | n
      · simp only [hidx]
        exact ih _ _ _
      · simp only [hidx]
        split
        · rfl
        · exact ih _ _ _

/-- A continuation line appearing while no header has been started
    contributes nothing. -/
theorem parseHeadersAux_orphan (pre : List (List Char)) :
    ∀ l rest cv acc,
      (∀ l' ∈ pre, startsWithWS l' = true ∨ jsIndexOf ':' l' = none ∨
        jsIndexOf ':' l' = some 0) →
      startsWithWS l = true →
      parseHeadersAux (pre ++ l :: rest) ([], cv) acc =
        parseHeadersAux (pre ++ rest) ([], cv) acc := by
  induction pre with
  | nil =>
    intro l rest cv acc _ hl
    simp only [List.nil_append, parseHeadersAux, if_pos hl]
    exact parseHeadersAux_cv_irrel rest _ _ _
  | cons p pre' ih =>
    intro l rest cv acc hpre hl
    have hp := hpre p (by simp)
    by_cases hws : startsWithWS p = true
    · simp only [List.cons_append, parseHeadersAux, if_pos hws, List.append_eq]
      exact ih _ _ _ _ (fun l' hl' => hpre l' (by simp [hl'])) hl
    · rcases hp with hp | hp | hp
      · exact absurd hp hws
      · simp only [List.cons_append, parseHeadersAux, if_neg hws, hp,
          List.append_eq]
        exact ih _ _ _ _ (fun l' hl' => hpre l' (by simp [hl'])) hl
      · simp only [List.cons_append, parseHeadersAux, if_neg hws, hp,
          Nat.lt_irrefl, if_false, reduceIte, List.append_eq]
        exact ih _ _ _ _ (fun l' hl' => hpre l' (by simp [hl'])) hl

theorem splitOnChar_eq_single {sep : Char} {s : List Char} (h : sep ∉ s) :
    splitOnChar sep s = [s] := by
  induction s with
  | nil => rfl
  | cons c rest ih =>
    simp only [splitOnChar]
    rw [if_neg (by rintro rfl; exact h (by simp)),
      ih (fun hc => h (by simp [hc]))]

theorem splitOnChar_append {sep : Char} {a b : List Char} (h : sep ∉ a) :
    splitOnChar sep (a ++ sep :: b) = a :: splitOnChar sep b := by
  induction a with
  | nil => simp [splitOnChar]
  | cons c a' ih =>
    simp only [List.cons_append, splitOnChar, List.append_eq]
    rw [if_neg (by rintro rfl; exact h (by simp)),
      ih (fun hc => h (by simp [hc]))]

theorem splitOnNL_joinNL {ls : List (List Char)} (hne : ls ≠ [])
    (hnl : ∀ l ∈ ls, '\n' ∉ l) : splitOnNL (joinNL ls) = ls := by
  induction ls with
  | nil => exact absurd rfl hne
  | cons l ls' ih =>
    rcases ls' with _ | ⟨l2, ls''⟩
    · simpa [joinNL, splitOnNL] using splitOnChar_eq_single (hnl l (by simp))
    · rw [joinNL_cons (by simp), splitOnNL,
        splitOnChar_append (hnl l (by simp))]
      rw [show splitOnChar '\n' (joinNL (l2 :: ls'')) = splitOnNL (joinNL (l2 :: ls'')) from rfl,
        ih (by simp) (fun x hx => hnl x (by simp [hx]))]

/-- Claim C10: every key of the parsed HeaderMap is non-empty and comes
    from a non-continuation line whose first colon is at a position
    strictly greater than zero; a continuation line seen before any
    header has been started contributes to no key and no stored value. -/
theorem C10_headermap_invariant :
    (∀ sec k v, (k, v) ∈ parseHeaders sec →
      k ≠ [] ∧ ∃ line ∈ splitOnNL sec, startsWithWS line = false ∧
        ∃ n, jsIndexOf ':' line = some n ∧ 0 < n ∧ k = jsTrim (line.take n)) ∧
    (∀ pre l rest,
      (∀ l' ∈ pre, startsWithWS l' = true ∨ jsIndexOf ':' l' = none ∨
        jsIndexOf ':' l' = some 0) →
      startsWithWS l = true →
      (∀ l' ∈ pre ++ l :: rest, '\n' ∉ l') →
      pre ++ rest ≠ [] →
      parseHeaders (joinNL (pre ++ l :: rest)) =
        parseHeaders (joinNL (pre ++ rest))) := by
  constructor
  · intro sec k v h
    rcases parseHeadersAux_mem (splitOnNL sec) [] [] [] k v h with h | h | ⟨hk, hrest⟩
    · simp at h
    · exact absurd h.1 h.2
    · exact ⟨hk, hrest⟩
  · intro pre l rest hpre hl hnl hne
    rw [parseHeaders, parseHeaders,
      splitOnNL_joinNL (by simp) hnl,
      splitOnNL_joinNL hne (fun x hx => hnl x (by
        rcases List.mem_append.mp hx with h | h
        · exact List.mem_append.mpr (Or.inl h)
        · exact List.mem_append.mpr (Or.inr (by simp [h]))))]
    exact parseHeadersAux_orphan pre l rest [] [] hpre hl

/-- Witness for C10: an orphan continuation line before the first header
    line leaves the parsed HeaderMap unchanged. -/
theorem C10_witness :
    parseHeaders (joinNL [" orphan".data, "A: x".data]) =
      parseHeaders (joinNL ["A: x".data]) :=
  C10_headermap_invariant.2 [] " orphan".data ["A: x".data]
    (by simp) (by decide) (by decide) (by decide)

/-! ### Claim C5 -/

theorem hget_eq_none {hs : List (List Char × List Char)} {k : List Char}
    (h : ∀ p ∈ hs, p.1 ≠ k) : hget hs k = none := by
  unfold hget
  rw [List.find?_eq_none.mpr (fun p hp => by simpa using h p hp)]
  rfl

theorem jsOr_some {v d : List Char} (hv : v ≠ []) : jsOr (some v) d = v := by
  simp [jsOr, hv]

/-- Claim C5, counterexample: a header stored under the case variant
    `SUBJECT` is present in the HeaderMap but is not found by the field
    lookup — the record carries the `(No Subject)` sentinel instead. -/
theorem C5_counterexample :
    (parseEmail "SUBJECT: Hi\nFrom: a@x.com\nTo: b@y.com\n\nbody".data).map
      EmailData.subject = some noSubject ∧
    hget (parseHeaders
        (splitHeaderBody
          (stripDelimiter "SUBJECT: Hi\nFrom: a@x.com\nTo: b@y.com\n\nbody".data)).1)
      "SUBJECT".data = some "Hi".data := by
  decide

/-- Claim C5 (amended): the downstream fields are looked up under exactly
    the literal key variants `Subject`/`subject`, `From`/`from`,
    `To`/`to`, `Date`/`date` and `Message-ID`/`Message-Id`/`message-id`
    (first non-empty value wins); a header stored under any other case
    variant is not found, and the sentinel/default is used. -/
theorem C5_field_lookup :
    (∀ hs, (∀ p ∈ hs, p.1 ≠ "Subject".data ∧ p.1 ≠ "subject".data) →
      subjectOf hs = noSubject) ∧
    (∀ hs, (∀ p ∈ hs, p.1 ≠ "From".data ∧ p.1 ≠ "from".data) →
      fromOf hs = noSender) ∧
    (∀ hs, (∀ p ∈ hs, p.1 ≠ "To".data ∧ p.1 ≠ "to".data) →
      toOf hs = noRecipient) ∧
    (∀ hs, (∀ p ∈ hs, p.1 ≠ "Date".data ∧ p.1 ≠ "date".data) →
      dateOf hs = []) ∧
    (∀ hs, (∀ p ∈ hs, p.1 ≠ "Message-ID".data ∧ p.1 ≠ "Message-Id".data ∧
        p.1 ≠ "message-id".data) → messageIdOf hs = []) ∧
    (∀ hs v, hget hs "Subject".data = some v → v ≠ [] → subjectOf hs = v) ∧
    (∀ hs v, hget hs "From".data = some v → v ≠ [] → fromOf hs = v) ∧
    (∀ hs v, hget hs "To".data = some v → v ≠ [] → toOf hs = v) ∧
    (∀ hs v, hget hs "Date".data = some v → v ≠ [] → dateOf hs = v) ∧
    (∀ hs v, hget hs "Message-ID".data = some v → v ≠ [] →
      messageIdOf hs = v) := by
  refine ⟨fun hs h => ?_, fun hs h => ?_, fun hs h => ?_, fun hs h => ?_,
    fun hs h => ?_, fun hs v h hv => ?_, fun hs v h hv => ?_,
    fun hs v h hv => ?_, fun hs v h hv => ?_, fun hs v h hv => ?_⟩
  · rw [subjectOf, hget_eq_none (fun p hp => (h p hp).1),
      hget_eq_none (fun p hp => (h p hp).2)]
    rfl
  · rw [fromOf, hget_eq_none (fun p hp => (h p hp).1),
      hget_eq_none (fun p hp => (h p hp).2)]
    rfl
  · rw [toOf, hget_eq_none (fun p hp => (h p hp).1),
      hget_eq_none (fun p hp => (h p hp).2)]
    rfl
  · rw [dateOf, hget_eq_none (fun p hp => (h p hp).1),
      hget_eq_none (fun p hp => (h p hp).2)]
    rfl
  · rw [messageIdOf, hget_eq_none (fun p hp => (h p hp).1),
      hget_eq_none (fun p hp => (h p hp).2.1),
      hget_eq_none (fun p hp => (h p hp).2.2)]
    rfl
  · rw [subjectOf, h, jsOr_some hv]
  · rw [fromOf, h, jsOr_some hv]
  · rw [toOf, h, jsOr_some hv]
  · rw [dateOf, h, jsOr_some hv]
  · rw [messageIdOf, h, jsOr_some hv]

/-- Witness for C5: a stored `Subject` entry with a non-empty value is
    used, and a map whose only key is `SUBJECT` yields the sentinel. -/
theorem C5_witness :
    subjectOf [("Subject".data, "Hi".data)] = "Hi".data ∧
    subjectOf [("SUBJECT".data, "Hi".data)] = noSubject :=
  ⟨C5_field_lookup.2.2.2.2.2.1 [("Subject".data, "Hi".data)] "Hi".data
      (by decide) (by decide),
    C5_field_lookup.1 [("SUBJECT".data, "Hi".data)] (by decide)⟩

/-! ### Claim C6 -/

/-- Claim C6: date normalization (with the host `Date` parser abstracted
    as an oracle `p`) attempts a direct parse, retries on the
    comment-stripped string on failure, and otherwise reports `none`; it
    is a total function (never throws).  For the example date, stripping
    removes ` (UTC)`, so any parser that accepts the stripped form makes
    the fallback succeed. -/
theorem C6_date_fallback :
    (∀ p s, parseDate p s = none ↔
      (s = [] ∨ (p s = none ∧ p (jsTrim (stripParenComments s)) = none))) ∧
    (∀ p s t, s ≠ [] → p s = some t → parseDate p s = some t) ∧
    (∀ p (t : Int), p "Mon, 12 Jan 2023 15:30:45 +0000 (UTC)".data = none →
      p "Mon, 12 Jan 2023 15:30:45 +0000".data = some t →
      parseDate p "Mon, 12 Jan 2023 15:30:45 +0000 (UTC)".data = some t) ∧
    jsTrim (stripParenComments "Mon, 12 Jan 2023 15:30:45 +0000 (UTC)".data) =
      "Mon, 12 Jan 2023 15:30:45 +0000".data := by
  have hstr : jsTrim (stripParenComments
      "Mon, 12 Jan 2023 15:30:45 +0000 (UTC)".data) =
      "Mon, 12 Jan 2023 15:30:45 +0000".data := by decide
  refine ⟨fun p s => ?_, fun p s t hs h => ?_, fun p t h1 h2 => ?_, hstr⟩
  · unfold parseDate
    by_cases hs : s = []
    · simp [hs]
    · rw [if_neg hs]
      rcases h1 : p s with _ | d
      · rcases h2 : p (jsTrim (stripParenComments s)) with _ | d2 <;>
          simp [hs, h1, h2]
      · simp [hs, h1]
  · rw [parseDate, if_neg hs, h]
  · rw [parseDate, if_neg (by decide), h1, hstr, h2]

/-- Witness for C6: the fallback applied with a concrete oracle that
    rejects the raw string and accepts the stripped one. -/
theorem C6_witness :
    parseDate
      (fun s => if s = "Mon, 12 Jan 2023 15:30:45 +0000".data
        then some 1673537445000 else none)
      "Mon, 12 Jan 2023 15:30:45 +0000 (UTC)".data = some 1673537445000 :=
  C6_date_fallback.2.2.1
    (fun s => if s = "Mon, 12 Jan 2023 15:30:45 +0000".data
      then some 1673537445000 else none)
    1673537445000 (by decide) (by decide)

/-! ### Claim C7 -/

theorem removeSoft_cons_ne {c : Char} (rest : List Char) (h : c ≠ '=') :
    removeSoft (c :: rest) = c :: removeSoft rest := by
  simp [removeSoft, h]

theorem removeSoft_escape {x : Char} (y : Char) (r : List Char)
    (h1 : x ≠ '\r') (h2 : x ≠ '\n') :
    removeSoft ('=' :: x :: y :: r) = '=' :: removeSoft (x :: y :: r) := by
  simp [removeSoft, h1, h2]

theorem removeSoft_id_of_notin {s : List Char} (h : '=' ∉ s) :
    removeSoft s = s := by
  induction s with
  | nil => rfl
  | cons c rest ih =>
    rw [removeSoft_cons_ne rest (by rintro rfl; exact h (by simp)),
      ih (fun hc => h (by simp [hc]))]

theorem removeSoft_append_notin {a : List Char} (r : List Char) (h : '=' ∉ a) :
    removeSoft (a ++ r) = a ++ removeSoft r := by
  induction a with
  | nil => rfl
  | cons c a' ih =>
    rw [List.cons_append,
      removeSoft_cons_ne _ (by rintro rfl; exact h (by simp)),
      ih (fun hc => h (by simp [hc]))]
    rfl

theorem replaceHexF_nil (fuel : Nat) : replaceHexF fuel [] = [] := by
  cases fuel <;> rfl

theorem replaceHexF_cons_ne {c : Char} (fuel : Nat) (rest : List Char)
    (h : c ≠ '=') :
    replaceHexF (fuel + 1) (c :: rest) = c :: replaceHexF fuel rest := by
  simp [replaceHexF, h]

theorem replaceHexF_escape {x y : Char} (fuel : Nat) (r : List Char)
    (hx : isUpHex x = true) (hy : isUpHex y = true) :
    replaceHexF (fuel + 1) ('=' :: x :: y :: r) =
      hexChar x y :: replaceHexF fuel r := by
  simp [replaceHexF, hx, hy]

theorem replaceHexF_id_of_notin {s : List Char} :
    ∀ fuel, '=' ∉ s → s.length ≤ fuel → replaceHexF fuel s = s := by
  induction s with
  | nil => intro fuel _ _; exact replaceHexF_nil fuel
  | cons c rest ih =>
    intro fuel h hf
    rcases fuel with _ | f
    · simp at hf
    · rw [replaceHexF_cons_ne f rest (by rintro rfl; exact h (by simp)),
        ih f (fun hc => h (by simp [hc])) (by simpa using hf)]

theorem replaceHexF_append_notin {a : List Char} :
    ∀ fuel r, '=' ∉ a → a.length + r.length ≤ fuel →
      replaceHexF fuel (a ++ r) = a ++ replaceHexF (fuel - a.length) r := by
  induction a with
  | nil => intro fuel r _ _; simp
  | cons c a' ih =>
    intro fuel r h hf
    rcases fuel with _ | f
    · simp at hf
    · rw [List.cons_append,
        replaceHexF_cons_ne f _ (by rintro rfl; exact h (by simp)),
        ih f r (fun hc => h (by simp [hc])) (by simp at hf ⊢; omega)]
      simp [Nat.succ_sub_succ]

/-- Claim C7: body decoding removes soft line breaks, decodes `=XY`
    uppercase-hex escapes to the character with that code, trims the
    result, and is a total function; with the two concrete examples of
    the spec. -/
theorem C7_quoted_printable :
    cleanBody "Caf=E9".data = "Caf".data ++ [Char.ofNat 0xE9] ∧
    cleanBody "line1=\nline2".data = "line1line2".data ∧
    (∀ s, '=' ∉ s → cleanBody s = jsTrim s) ∧
    (∀ a b c : List Char, ∀ x y : Char, '=' ∉ a → '=' ∉ b → '=' ∉ c →
      isUpHex x = true → isUpHex y = true →
      cleanBody (a ++ '=' :: '\n' :: (b ++ '=' :: x :: y :: c)) =
        jsTrim (a ++ b ++ hexChar x y :: c)) := by
  refine ⟨by decide, by decide, fun s h => ?_, fun a b c x y ha hb hc hx hy => ?_⟩
  · rw [cleanBody, removeSoft_id_of_notin h, replaceHex,
      replaceHexF_id_of_notin s.length h (Nat.le_refl _)]
  · have hxr : x ≠ '\r' := by rintro rfl; exact absurd hx (by decide)
    have hxn : x ≠ '\n' := by rintro rfl; exact absurd hx (by decide)
    have hxe : x ≠ '=' := by rintro rfl; exact absurd hx (by decide)
    have hye : y ≠ '=' := by rintro rfl; exact absurd hy (by decide)
    have hrs : removeSoft (a ++ '=' :: '\n' :: (b ++ '=' :: x :: y :: c)) =
        a ++ b ++ '=' :: x :: y :: c := by
      rw [removeSoft_append_notin _ ha,
        show removeSoft ('=' :: '\n' :: (b ++ '=' :: x :: y :: c)) =
          removeSoft (b ++ '=' :: x :: y :: c) from by simp [removeSoft],
        removeSoft_append_notin _ hb, removeSoft_escape _ _ hxr hxn,
        removeSoft_cons_ne _ hxe, removeSoft_cons_ne _ hye,
        removeSoft_id_of_notin hc, List.append_assoc]
    rw [cleanBody, hrs, replaceHex]
    have hlen : (a ++ b ++ '=' :: x :: y :: c).length =
        (a ++ b).length + (c.length + 3) := by simp; omega
    rw [show a ++ b ++ '=' :: x :: y :: c = (a ++ b) ++ '=' :: x :: y :: c from by
        simp,
      replaceHexF_append_notin _ _
        (by simp at ha hb ⊢; tauto)
        (by rw [hlen]; simp),
      show (a ++ b ++ '=' :: x :: y :: c).length - (a ++ b).length =
        c.length + 2 + 1 from by simp; omega,
      replaceHexF_escape _ _ hx hy,
      replaceHexF_id_of_notin _ hc (by omega)]

/-- Witness for C7: the escape-and-soft-break law evaluated at a concrete
    body. -/
theorem C7_witness :
    cleanBody ("q".data ++ '=' :: '\n' :: ("w".data ++ '=' :: '4' :: '1' :: "e".data)) =
      jsTrim ("q".data ++ "w".data ++ hexChar '4' '1' :: "e".data) :=
  C7_quoted_printable.2.2.2 "q".data "w".data "e".data '4' '1'
    (by decide) (by decide) (by decide) (by decide) (by decide)

/-! ### Claim C8 -/

theorem takeWhile_append_stop {p : Char → Bool} {l : List Char} (x : Char)
    (r : List Char) (hl : ∀ c ∈ l, p c = true) (hx : p x = false) :
    (l ++ x :: r).takeWhile p = l := by
  induction l with
  | nil => simp [List.takeWhile_cons, hx]
  | cons c l' ih =>
    simp [List.takeWhile_cons, hl c (by simp),
      ih (fun d hd => hl d (by simp [hd]))]

theorem dropWhile_append_stop {p : Char → Bool} {l : List Char} (x : Char)
    (r : List Char) (hl : ∀ c ∈ l, p c = true) (hx : p x = false) :
    (l ++ x :: r).dropWhile p = x :: r := by
  induction l with
  | nil => simp [List.dropWhile_cons, hx]
  | cons c l' ih =>
    simp [List.dropWhile_cons, hl c (by simp),
      ih (fun d hd => hl d (by simp [hd]))]

theorem matchEncWord_cons_ne {c : Char} (rest : List Char) (h : c ≠ '=') :
    matchEncWord (c :: rest) = none := by
  simp [matchEncWord, h]

/-- A well-formed encoded word at the head of the input is matched whole,
    with its payload captured and the remainder untouched. -/
theorem matchEncWord_word {cs pl : List Char} {e : Char} (b : List Char)
    (hcs : cs ≠ []) (hcsq : '?' ∉ cs) (he : encLetter e = true)
    (hpl : pl ≠ []) (hplq : '?' ∉ pl) :
    matchEncWord (encWord cs e pl ++ b) = some (encWord cs e pl, pl, b) := by
  have hX : (cs ++ '?' :: e :: '?' :: (pl ++ ['?', '='])) ++ b =
      cs ++ '?' :: e :: '?' :: (pl ++ '?' :: '=' :: b) := by simp
  have htw1 : (cs ++ '?' :: e :: '?' :: (pl ++ '?' :: '=' :: b)).takeWhile
      (fun c => decide (c ≠ '?')) = cs :=
    takeWhile_append_stop _ _
      (fun c hc => by simp; rintro rfl; exact hcsq hc) (by simp)
  have hdw1 : (cs ++ '?' :: e :: '?' :: (pl ++ '?' :: '=' :: b)).dropWhile
      (fun c => decide (c ≠ '?')) = '?' :: e :: '?' :: (pl ++ '?' :: '=' :: b) :=
    dropWhile_append_stop _ _
      (fun c hc => by simp; rintro rfl; exact hcsq hc) (by simp)
  have htw2 : (pl ++ '?' :: '=' :: b).takeWhile (fun c => decide (c ≠ '?')) = pl :=
    takeWhile_append_stop _ _
      (fun c hc => by simp; rintro rfl; exact hplq hc) (by simp)
  have hdw2 : (pl ++ '?' :: '=' :: b).dropWhile (fun c => decide (c ≠ '?')) =
      '?' :: '=' :: b :=
    dropWhile_append_stop _ _
      (fun c hc => by simp; rintro rfl; exact hplq hc) (by simp)
  simp only [encWord, List.cons_append, matchEncWord, hX, htw1, hdw1, htw2,
    hdw2, if_neg hcs, if_neg hpl, he, if_true]

theorem decodeWordsF_nil (fuel : Nat) : decodeWordsF fuel [] = [] := by
  cases fuel <;> rfl

theorem decodeWordsF_id_of_notin {s : List Char} :
    ∀ fuel, '=' ∉ s → s.length ≤ fuel → decodeWordsF fuel s = s := by
  induction s with
  | nil => intro fuel _ _; exact decodeWordsF_nil fuel
  | cons c rest ih =>
    intro fuel h hf
    rcases fuel with _ | f
    · simp at hf
    · have hc : c ≠ '=' := by rintro rfl; exact h (by simp)
      rw [show decodeWordsF (f + 1) (c :: rest) =
          c :: decodeWordsF f rest from by
        simp [decodeWordsF, matchEncWord_cons_ne rest hc]]
      rw [ih f (fun hc => h (by simp [hc])) (by simpa using hf)]

theorem decodeWordsF_append_notin {a : List Char} :
    ∀ fuel r, '=' ∉ a → a.length + r.length ≤ fuel →
      decodeWordsF fuel (a ++ r) = a ++ decodeWordsF (fuel - a.length) r := by
  induction a with
  | nil => intro fuel r _ _; simp
  | cons c a' ih =>
    intro fuel r h hf
    rcases fuel with _ | f
    · simp at hf
    · have hc : c ≠ '=' := by rintro rfl; exact h (by simp)
      rw [List.cons_append,
        show decodeWordsF (f + 1) (c :: (a' ++ r)) =
          c :: decodeWordsF f (a' ++ r) from by
        simp [decodeWordsF, matchEncWord_cons_ne _ hc],
        ih f r (fun hc => h (by simp [hc])) (by simp at hf ⊢; omega)]
      simp [Nat.succ_sub_succ]

theorem encWord_length (cs : List Char) (e : Char) (pl : List Char) :
    (encWord cs e pl).length = 7 + cs.length + pl.length := by
  simp [encWord]
  omega

/-- Claim C8: an RFC2047 encoded word whose payload `atob`-decodes is
    replaced by the decoded text, and one whose payload fails to decode is
    left character-for-character unchanged; with the spec's Base64
    round-trip example. -/
theorem C8_encoded_words :
    decodeHeader "=?UTF-8?B?SGVsbG8=?=".data = "Hello".data ∧
    (∀ a b cs pl d : List Char, ∀ e : Char, '=' ∉ a → '=' ∉ b →
      cs ≠ [] → '?' ∉ cs → encLetter e = true → pl ≠ [] → '?' ∉ pl →
      atob pl = some d →
      decodeHeader (a ++ encWord cs e pl ++ b) = jsTrim (a ++ d ++ b)) ∧
    (∀ a b cs pl : List Char, ∀ e : Char, '=' ∉ a → '=' ∉ b →
      cs ≠ [] → '?' ∉ cs → encLetter e = true → pl ≠ [] → '?' ∉ pl →
      atob pl = none →
      decodeHeader (a ++ encWord cs e pl ++ b) =
        jsTrim (a ++ encWord cs e pl ++ b)) := by
  have main : ∀ (a b cs pl : List Char) (e : Char), '=' ∉ a → '=' ∉ b →
      cs ≠ [] → '?' ∉ cs → encLetter e = true → pl ≠ [] → '?' ∉ pl →
      decodeHeader (a ++ encWord cs e pl ++ b) =
        jsTrim (a ++ (match atob pl with | some d => d | none => encWord cs e pl)
          ++ b) := by
    intro a b cs pl e ha hb hcs hcsq he hpl hplq
    have hw1 : 1 ≤ (encWord cs e pl).length := by rw [encWord_length]; omega
    rw [decodeHeader, decodeWords, List.append_assoc,
      decodeWordsF_append_notin _ _ ha (by simp)]
    have hk : (a ++ (encWord cs e pl ++ b)).length - a.length =
        ((encWord cs e pl).length + b.length - 1) + 1 := by
      simp
      omega
    rw [hk]
    have hcons : ∃ t, encWord cs e pl ++ b = '=' :: '?' :: t := by
      exact ⟨(cs ++ '?' :: e :: '?' :: (pl ++ ['?', '='])) ++ b, by
        simp [encWord]⟩
    have hstep : decodeWordsF (((encWord cs e pl).length + b.length - 1) + 1)
        (encWord cs e pl ++ b) =
        (match atob pl with | some d => d | none => encWord cs e pl) ++
          decodeWordsF ((encWord cs e pl).length + b.length - 1) b := by
      obtain ⟨t, ht⟩ := hcons
      rw [ht, decodeWordsF, ← ht, matchEncWord_word b hcs hcsq he hpl hplq]
    rw [hstep, decodeWordsF_id_of_notin _ hb (by rw [encWord_length]; omega),
      ← List.append_assoc]
  refine ⟨by decide, fun a b cs pl d e ha hb hcs hcsq he hpl hplq hd => ?_,
    fun a b cs pl e ha hb hcs hcsq he hpl hplq hd => ?_⟩
  · rw [main a b cs pl e ha hb hcs hcsq he hpl hplq, hd]
  · rw [main a b cs pl e ha hb hcs hcsq he hpl hplq, hd]

/-- Witness for C8: the success and failure laws evaluated on concrete
    encoded words. -/
theorem C8_witness :
    decodeHeader ("x ".data ++ encWord "UTF-8".data 'B' "SGVsbG8=".data ++ [] ) =
      jsTrim ("x ".data ++ "Hello".data ++ []) ∧
    decodeHeader ([] ++ encWord "UTF-8".data 'B' "###".data ++ []) =
      jsTrim ([] ++ encWord "UTF-8".data 'B' "###".data ++ []) :=
  ⟨C8_encoded_words.2.1 "x ".data [] "UTF-8".data "SGVsbG8=".data
      "Hello".data 'B' (by decide) (by decide) (by decide) (by decide)
      (by decide) (by decide) (by decide) (by decide),
    C8_encoded_words.2.2 [] [] "UTF-8".data "###".data 'B' (by decide)
      (by decide) (by decide) (by decide) (by decide) (by decide) (by decide)
      (by decide)⟩

/-! ### Claim C1 -/

/-- Claim C1: the classifier excludes a message exactly when an ignored
    sender matches (substring of the raw from field or of its display
    name, case-insensitive) or both the from identity and some to
    identity match a configured self address/name; a from-is-me match
    alone does not exclude, an ignored-sender match always does, and the
    spec's two concrete scenarios behave as stated. -/
theorem C1_classifier_rule :
    (∀ cfg e, isSelfEmail cfg e =
      (ignoredMatch cfg e || (fromIsMe cfg e && toIncludesMe cfg e))) ∧
    (∀ cfg e, ignoredMatch cfg e = true → isSelfEmail cfg e = true) ∧
    (∀ cfg e, ignoredMatch cfg e = false → fromIsMe cfg e = true →
      toIncludesMe cfg e = false → isSelfEmail cfg e = false) ∧
    (∀ e, e.«from» = "Mail Delivery Subsystem <bounce@x.com>".data →
      isSelfEmail ⟨["Mail Delivery Subsystem".data], [], []⟩ e = true) ∧
    (∀ e, e.«from» = "A <a@x.com>".data → e.«to» = "B <b@x.com>".data →
      isSelfEmail ⟨[], ["a@x.com".data], []⟩ e = false) := by
  have h1 : ∀ cfg e, isSelfEmail cfg e =
      (ignoredMatch cfg e || (fromIsMe cfg e && toIncludesMe cfg e)) := by
    intro cfg e
    simp only [isSelfEmail, ignoredMatch, fromIsMe, toIncludesMe]
    split
    · rename_i h
      rw [h]
      rfl
    · rename_i h
      rw [Bool.not_eq_true] at h
      rw [h]
      rfl
  refine ⟨h1, fun cfg e h => ?_, fun cfg e hig hf ht => ?_,
    fun e hfrom => ?_, fun e hfrom hto => ?_⟩
  · rw [h1, h]
    rfl
  · rw [h1, hig, hf, ht]
    rfl
  · rw [h1]
    have : ignoredMatch ⟨["Mail Delivery Subsystem".data], [], []⟩ e = true := by
      simp only [ignoredMatch, hfrom]
      decide
    rw [this]
    rfl
  · rw [h1]
    have hig : ignoredMatch ⟨[], ["a@x.com".data], []⟩ e = false := rfl
    have ht : toIncludesMe ⟨[], ["a@x.com".data], []⟩ e = false := by
      simp only [toIncludesMe, hto]
      decide
    rw [hig, ht]
    simp

/-- Witness for C1: the ignored-sender rule and the from-only rule
    evaluated on the spec's concrete scenarios. -/
theorem C1_witness :
    isSelfEmail ⟨["Mail Delivery Subsystem".data], [], []⟩
      ⟨[], "Mail Delivery Subsystem <bounce@x.com>".data, "whoever".data,
        [], [], [], []⟩ = true ∧
    isSelfEmail ⟨[], ["a@x.com".data], []⟩
      ⟨[], "A <a@x.com>".data, "B <b@x.com>".data, [], [], [], []⟩ = false :=
  ⟨C1_classifier_rule.2.2.2.1
      ⟨[], "Mail Delivery Subsystem <bounce@x.com>".data, "whoever".data,
        [], [], [], []⟩ rfl,
    C1_classifier_rule.2.2.2.2
      ⟨[], "A <a@x.com>".data, "B <b@x.com>".data, [], [], [], []⟩ rfl rfl⟩

/-! ### Claim C9 -/

theorem idxOfNLNL_none_of_notin {s : List Char} (h : '\n' ∉ s) :
    idxOfNLNL s = none := by
  induction s with
  | nil => rfl
  | cons c rest ih =>
    simp only [idxOfNLNL]
    rw [if_neg (by rintro ⟨rfl, _⟩; exact h (by simp)),
      ih (fun hc => h (by simp [hc]))]
    rfl

theorem idxOfNLNL_none_nl_sep {a b : List Char} (ha : '\n' ∉ a)
    (hb : idxOfNLNL b = none) (hbh : b.head? ≠ some '\n') :
    idxOfNLNL (a ++ '\n' :: b) = none := by
  induction a with
  | nil =>
    simp only [List.nil_append, idxOfNLNL]
    rw [if_neg (by rintro ⟨_, h2⟩; exact hbh h2), hb]
    rfl
  | cons c a' ih =>
    simp only [List.cons_append, idxOfNLNL, List.append_eq]
    rw [if_neg (by rintro ⟨rfl, _⟩; exact ha (by simp)),
      ih (fun hc => ha (by simp [hc]))]
    rfl

theorem mem_dropWhile_of_mem {p : Char → Bool} {c : Char} {l : List Char}
    (hc : c ∈ l) (hp : p c = false) : c ∈ l.dropWhile p := by
  induction l with
  | nil => simp at hc
  | cons x xs ih =>
    rw [List.dropWhile_cons]
    split
    · rename_i hx
      rcases List.mem_cons.mp hc with rfl | hm
      · rw [hp] at hx; simp at hx
      · exact ih hm
    · exact hc

theorem jsTrim_ne_nil_of_mem {c : Char} {l : List Char} (hc : c ∈ l)
    (hp : isJsSpace c = false) : jsTrim l ≠ [] := by
  intro h
  have h1 : c ∈ l.dropWhile isJsSpace := mem_dropWhile_of_mem hc hp
  have h2 : c ∈ (l.dropWhile isJsSpace).reverse := by simpa using h1
  have h3 : c ∈ (l.dropWhile isJsSpace).reverse.dropWhile isJsSpace :=
    mem_dropWhile_of_mem h2 hp
  unfold jsTrim at h
  rw [List.reverse_eq_nil_iff] at h
  rw [h] at h3
  simp at h3

theorem mem_of_contains {c : Char} {l : List Char}
    (h : l.contains c = true) : c ∈ l := by
  simpa using h

theorem findHeaderEnd_nil (i : Nat) (acc : Int) :
    findHeaderEnd [] i acc = acc := rfl

/-- Scan step for a line the source counts as a header line: colon
    present and total length below 200. -/
theorem findHeaderEnd_header_step {line : List Char}
    (rest : List (List Char)) (i : Nat) (acc : Int)
    (hws : startsWithWS line = false) (hcol : line.contains ':' = true)
    (hlen : line.length < 200) :
    findHeaderEnd (line :: rest) i acc =
      findHeaderEnd rest (i + 1) (Int.ofNat i) := by
  rw [findHeaderEnd, if_neg (by simp [hws]), if_pos ⟨hcol, hlen⟩]

/-- Scan step for a colon-bearing line of length at least 200: neither a
    header line nor a boundary — the scan just moves on. -/
theorem findHeaderEnd_skip_step {line : List Char}
    (rest : List (List Char)) (i : Nat) (acc : Int)
    (hws : startsWithWS line = false) (hcol : line.contains ':' = true)
    (hlen : 200 ≤ line.length) :
    findHeaderEnd (line :: rest) i acc = findHeaderEnd rest (i + 1) acc := by
  rw [findHeaderEnd, if_neg (by simp [hws]),
    if_neg (by rintro ⟨_, h2⟩; omega),
    if_neg (jsTrim_ne_nil_of_mem (mem_of_contains hcol) (by decide)),
    if_neg (by rintro ⟨_, h2⟩; exact h2 hcol)]

/-- Claim C9 (amended): in the fallback scan, a non-whitespace-led line
    containing a colon is treated as a header line exactly when its total
    length is less than 200 characters — not when its first colon falls
    within the first 200 characters; a colon-bearing line of 200 or more
    characters is neither a header line nor a boundary (the scan skips
    it, and a later short header line can still extend the header
    section past it). -/
theorem C9_long_header_line (L : List Char) (hnl : '\n' ∉ L)
    (hws : startsWithWS L = false) (hcolon : L.contains ':' = true) :
    (L.length < 200 →
      splitHeaderBody ("A: b\n".data ++ L) =
        ("A: b".data ++ '\n' :: L, [])) ∧
    (200 ≤ L.length →
      splitHeaderBody ("A: b\n".data ++ L) = ("A: b".data, cleanBody L)) ∧
    (200 ≤ L.length →
      splitHeaderBody (("A: b\n".data ++ L) ++ '\n' :: "C: d".data) =
        ("A: b".data ++ '\n' :: (L ++ '\n' :: "C: d".data), [])) := by
  have hmem : ':' ∈ L := mem_of_contains hcolon
  have hbh : L.head? ≠ some '\n' := by
    rcases L with _ | ⟨l₀, L'⟩
    · simp
    · simp only [List.head?_cons, ne_eq, Option.some.injEq]
      rintro rfl
      exact hnl (by simp)
  have hform : "A: b\n".data ++ L = "A: b".data ++ '\n' :: L := rfl
  have hidx1 : idxOfNLNL ("A: b".data ++ '\n' :: L) = none :=
    idxOfNLNL_none_nl_sep (by decide) (idxOfNLNL_none_of_notin hnl) hbh
  have hsplit1 : splitOnNL ("A: b".data ++ '\n' :: L) = ["A: b".data, L] := by
    rw [splitOnNL, splitOnChar_append (by decide),
      show splitOnChar '\n' L = [L] from splitOnChar_eq_single hnl]
  refine ⟨fun hlt => ?_, fun hge => ?_, fun hge => ?_⟩
  · have hfe : findHeaderEnd ["A: b".data, L] 0 (-1) = 1 := by
      rw [findHeaderEnd_header_step _ 0 _ (by decide) (by decide) (by decide),
        findHeaderEnd_header_step _ 1 _ hws hcolon hlt, findHeaderEnd_nil]
      rfl
    rw [hform, splitHeaderBody, hidx1]
    simp only [hsplit1, hfe]
    rfl
  · have hfe : findHeaderEnd ["A: b".data, L] 0 (-1) = 0 := by
      rw [findHeaderEnd_header_step _ 0 _ (by decide) (by decide) (by decide),
        findHeaderEnd_skip_step _ 1 _ hws hcolon hge, findHeaderEnd_nil]
      rfl
    rw [hform, splitHeaderBody, hidx1]
    simp only [hsplit1, hfe]
    rfl
  · have hform2 : ("A: b\n".data ++ L) ++ '\n' :: "C: d".data =
        "A: b".data ++ '\n' :: (L ++ '\n' :: "C: d".data) := by simp
    have hbh2 : (L ++ '\n' :: "C: d".data).head? ≠ some '\n' := by
      rcases L with _ | ⟨l₀, L'⟩
      · simp at hmem
      · simp only [List.cons_append, List.head?_cons, ne_eq,
          Option.some.injEq]
        rintro rfl
        exact hnl (by simp)
    have hidx2 : idxOfNLNL ("A: b".data ++ '\n' ::
        (L ++ '\n' :: "C: d".data)) = none :=
      idxOfNLNL_none_nl_sep (by decide)
        (idxOfNLNL_none_nl_sep hnl (by decide) (by decide)) hbh2
    have hsplit2 : splitOnNL ("A: b".data ++ '\n' ::
        (L ++ '\n' :: "C: d".data)) = ["A: b".data, L, "C: d".data] := by
      rw [splitOnNL, splitOnChar_append (by decide),
        splitOnChar_append hnl,
        show splitOnChar '\n' "C: d".data = ["C: d".data] from by decide]
    have hfe : findHeaderEnd ["A: b".data, L, "C: d".data] 0 (-1) = 2 := by
      rw [findHeaderEnd_header_step _ 0 _ (by decide) (by decide) (by decide),
        findHeaderEnd_skip_step _ 1 _ hws hcolon hge,
        findHeaderEnd_header_step _ 2 _ (by decide) (by decide) (by decide),
        findHeaderEnd_nil]
      rfl
    rw [hform2, splitHeaderBody, hidx2]
    simp only [hsplit2, hfe]
    rfl

/-- Witness for C9: the skip behaviour on a concrete 250-character line
    with an early colon. -/
theorem C9_witness :
    splitHeaderBody ("A: b\n".data ++ 'X' :: ':' :: List.replicate 248 'a') =
      ("A: b".data, cleanBody ('X' :: ':' :: List.replicate 248 'a')) :=
  (C9_long_header_line ('X' :: ':' :: List.replicate 248 'a')
    (by decide) (by decide) (by decide)).2.1 (by decide)

/-- Claim C9, counterexample: a 250-character line whose colon appears at
    position 1 satisfies the spec's header-line test, yet the scan does
    not treat it as a header line — it lands in the body. -/
theorem C9_counterexample :
    specHeaderLine ('X' :: ':' :: List.replicate 248 'a') = true ∧
    (splitHeaderBody
      ("A: b\n".data ++ 'X' :: ':' :: List.replicate 248 'a')).1 =
      "A: b".data := by
  decide

end Mbox
